import Mathlib

/-!
Verification of the `gitmon` commit monitor (src/src/main.rs) against its
natural-language specification.  The Rust program is shallowly embedded:
pure string manipulation is translated to functions on `String` / `List Char`,
the git revision walk is modelled as a stream of items (each either a commit
or a read error, mirroring the `Result` items the `revwalk` iterator yields),
and the effectful orchestrator in `main` is modelled by explicit state
passing plus an effect trace.  Per the specification's stated non-goals
("does not support non-linear history analysis"), a repository history is
modelled as the newest-first linear sequence of commits that the walk yields
from head; an ancestor of a commit is a commit appearing strictly later in
that sequence.
-/

namespace Gitmon

/-! ## Generic string helpers (models of the Rust `str` methods used) -/

/-- Model of Rust `str::contains(pat)` on character lists: some suffix of the
haystack starts with the pattern. -/
def listContainsSub (hay pat : List Char) : Bool :=
  match hay with
  | [] => pat.isEmpty
  | _ :: t => pat.isPrefixOf hay || listContainsSub t pat

/-- Model of Rust `str::contains` for string patterns. -/
def strContains (s pat : String) : Bool :=
  listContainsSub s.data pat.data

/-- Model of Rust `str::starts_with`. -/
def strStartsWith (s pat : String) : Bool :=
  pat.data.isPrefixOf s.data

/-- Model of Rust `str::ends_with`. -/
def strEndsWith (s pat : String) : Bool :=
  pat.data.isSuffixOf s.data

/-- One fuelled pass of Rust `str::trim_end_matches`: while the pattern is a
suffix, remove it.  Fuel bounds the number of removals; `length l` removals
always suffice because each removal of a non-empty pattern shortens the list
(and for an empty pattern Rust returns the input unchanged, as does fuel
exhaustion here). -/
def trimEndList (pat : List Char) : Nat → List Char → List Char
  | 0, l => l
  | fuel + 1, l =>
    if pat ≠ [] ∧ pat.isSuffixOf l then
      trimEndList pat fuel (l.take (l.length - pat.length))
    else l

/-- Model of Rust `str::trim_end_matches(pat)`: repeatedly removes the
pattern from the end of the string. -/
def trimEndMatches (s pat : String) : String :=
  ⟨trimEndList pat.data s.data.length s.data⟩

/-- Model of Rust `str::strip_prefix`: `some rest` when the pattern comes
first, else `none`. -/
def stripLit (pat l : List Char) : Option (List Char) :=
  if pat.isPrefixOf l then some (l.drop pat.length) else none

/-- Model of Rust `str::trim` (ASCII whitespace suffices for the commit
trailers it is applied to). -/
def trimList (l : List Char) : List Char :=
  ((l.dropWhile Char.isWhitespace).reverse.dropWhile Char.isWhitespace).reverse

/-- Final empty segment dropped, as Rust `str::lines` does for a trailing
newline. -/
def dropFinalEmpty : List (List Char) → List (List Char)
  | [] => []
  | [x] => if x = [] then [] else [x]
  | x :: y :: t => x :: dropFinalEmpty (y :: t)

/-- A trailing carriage return removed from a line, as Rust `str::lines`
does. -/
def stripCR (l : List Char) : List Char :=
  if l.getLast? = some '\r' then l.dropLast else l

/-- Model of Rust `str::lines`: split on newline, drop a final empty
segment, strip a trailing carriage return from each line. -/
def rustLines (s : String) : List (List Char) :=
  (dropFinalEmpty (s.data.splitOn '\n')).map stripCR

/-! ## Data model: commits and errors -/

/-- A raw commit as read from the local mirror: the fields of `git2::Commit`
that `get_new_commits_since` consumes (`id().to_string()`, `time().seconds()`,
`message()`, `author().name()`, `summary()`). -/
structure RawCommit where
  id : String
  time : Int
  message : Option String
  author_name : Option String
  summary : Option String
deriving DecidableEq

/-- A `git2::Error`, carrying only its message. -/
structure GitError where
  msg : String
deriving DecidableEq

/-- An `Except` value viewed as a sum, to derive decidable equality. -/
def exceptToSum : Except α β → α ⊕ β
  | .error a => .inl a
  | .ok b => .inr b

instance [DecidableEq α] [DecidableEq β] : DecidableEq (Except α β) := fun x y =>
  decidable_of_iff (exceptToSum x = exceptToSum y)
    (by cases x <;> cases y <;> simp [exceptToSum])

/-- The `CommitInfo` record of src/src/main.rs (lines 48-54). -/
structure CommitInfo where
  id : String
  date : String
  author : String
  message : String
  change_id : Option String
deriving DecidableEq

/-- Model of the external chrono formatting of the commit timestamp
(`dt.format("%Y-%m-%d %H:%M:%S")`); its exact rendering is irrelevant to
every claim, so the timestamp is rendered in decimal. -/
def formatDate (t : Int) : String :=
  toString t

/-- The `Change-Id:` trailer scan of src/src/main.rs lines 141-147: the
first line of the full commit message starting with `Change-Id:` yields the
trimmed remainder; later matches are ignored. -/
def findChangeId : List (List Char) → Option String
  | [] => none
  | line :: rest =>
    match stripLit "Change-Id:".data line with
    | some r => some ⟨trimList r⟩
    | none => findChangeId rest

/-- Construction of one `CommitInfo` from a raw commit, following
src/src/main.rs lines 136-155. -/
def mkCommitInfo (c : RawCommit) : CommitInfo :=
  { id := c.id
    date := formatDate c.time
    author := c.author_name.getD "Unknown"
    message := c.summary.getD ""
    change_id := findChangeId (rustLines (c.message.getD "")) }

/-- The `max_commits` cap test of src/src/main.rs lines 122-126: with
`some m`, the loop breaks once `m` records have been collected. -/
def capReached (maxc : Option Nat) (count : Nat) : Bool :=
  match maxc with
  | some m => decide (m ≤ count)
  | none => false

/-- The revwalk loop body of `get_new_commits_since` (src/src/main.rs lines
120-156): `count` is the number of records collected so far; each stream item
is either a commit or an error (the `oid?` / `find_commit(oid)?` failures),
and an error aborts the whole walk, discarding earlier records. -/
def walkGo (last_seen : Option String) (maxc : Option Nat) :
    Nat → List (Except GitError RawCommit) → Except GitError (List CommitInfo)
  | _, [] => .ok []
  | count, item :: rest =>
    if capReached maxc count then .ok []
    else
      match item with
      | .error e => .error e
      | .ok c =>
        if last_seen = some c.id then .ok []
        else
          match walkGo last_seen maxc (count + 1) rest with
          | .ok tail => .ok (mkCommitInfo c :: tail)
          | .error e => .error e

/-- `get_new_commits_since` of src/src/main.rs lines 110-159.  Opening the
repository and initialising the revwalk may fail (`Repository::open(..)?`,
`revwalk()?`, `push_head()?`); that stage is the outer `Except`.  On success
the walk consumes the newest-first item stream. -/
def get_new_commits_since (source : Except GitError (List (Except GitError RawCommit)))
    (last_seen : Option String) (max_commits : Option Nat) :
    Except GitError (List CommitInfo) :=
  match source with
  | .error e => .error e
  | .ok items => walkGo last_seen max_commits 0 items

/-- An error-free revwalk stream over a plain history. -/
def okStream (hist : List RawCommit) : List (Except GitError RawCommit) :=
  hist.map .ok

/-- The history up to (excluding) the first commit whose id is the last-seen
watermark; the whole history when no watermark is given. -/
def takeUntilSeen (last : Option String) (hist : List RawCommit) : List RawCommit :=
  match last with
  | none => hist
  | some x => hist.takeWhile (fun c => c.id != x)

/-- Truncation to an optional cap. -/
def optTake (maxc : Option Nat) (l : List α) : List α :=
  match maxc with
  | some m => l.take m
  | none => l

/-- The commits strictly below the first occurrence of id `x` in the
newest-first history: in the linear-history model these are exactly the
ancestors of the commit named `x`. -/
def ancestorsIn (hist : List RawCommit) (x : String) : List RawCommit :=
  (hist.dropWhile (fun c => c.id != x)).drop 1

@[simp] theorem mkCommitInfo_id (c : RawCommit) : (mkCommitInfo c).id = c.id := rfl

@[simp] theorem takeUntilSeen_nil (last : Option String) : takeUntilSeen last [] = [] := by
  cases last <;> rfl

theorem takeUntilSeen_cons_stop (c : RawCommit) (t : List RawCommit) :
    takeUntilSeen (some c.id) (c :: t) = [] := by
  simp [takeUntilSeen, List.takeWhile_cons]

theorem takeUntilSeen_cons_go (last : Option String) (c : RawCommit) (t : List RawCommit)
    (h : last ≠ some c.id) :
    takeUntilSeen last (c :: t) = c :: takeUntilSeen last t := by
  cases last with
  | none => rfl
  | some x =>
    have hx : (c.id != x) = true := by
      rw [bne_iff_ne]
      intro he; exact h (by rw [he])
    simp [takeUntilSeen, List.takeWhile_cons, hx]

theorem walkGo_some_eq (last : Option String) (m : Nat) (hist : List RawCommit) :
    ∀ count, walkGo last (some m) count (okStream hist)
      = .ok (((takeUntilSeen last hist).take (m - count)).map mkCommitInfo) := by
  induction hist with
  | nil => intro count; simp [walkGo, okStream]
  | cons c t ih =>
    intro count
    by_cases hc : m ≤ count
    · have hzero : m - count = 0 := Nat.sub_eq_zero_of_le hc
      simp [walkGo, okStream, capReached, hc, hzero]
    · by_cases hl : last = some c.id
      · subst hl
        simp [walkGo, okStream, capReached, hc, takeUntilSeen_cons_stop]
      · have hstep : m - count = (m - (count + 1)) + 1 := by omega
        have iht := ih (count + 1)
        simp only [okStream] at iht
        simp [walkGo, okStream, capReached, hc, hl, iht,
          takeUntilSeen_cons_go last c t hl, hstep]

theorem walkGo_none_eq (last : Option String) (hist : List RawCommit) :
    ∀ count, walkGo last none count (okStream hist)
      = .ok ((takeUntilSeen last hist).map mkCommitInfo) := by
  induction hist with
  | nil => intro count; simp [walkGo, okStream]
  | cons c t ih =>
    intro count
    by_cases hl : last = some c.id
    · subst hl
      simp [walkGo, okStream, capReached, takeUntilSeen_cons_stop]
    · have iht := ih (count + 1)
      simp only [okStream] at iht
      simp [walkGo, okStream, capReached, hl, iht,
        takeUntilSeen_cons_go last c t hl]

/-- On an error-free stream, the walk returns exactly the newest-first
history truncated at the watermark (exclusive) and then at the cap. -/
theorem get_new_commits_pure (hist : List RawCommit) (last : Option String)
    (maxc : Option Nat) :
    get_new_commits_since (.ok (okStream hist)) last maxc
      = .ok ((optTake maxc (takeUntilSeen last hist)).map mkCommitInfo) := by
  cases maxc with
  | none => simpa [get_new_commits_since, optTake] using walkGo_none_eq last hist 0
  | some m => simpa [get_new_commits_since, optTake] using walkGo_some_eq last m hist 0

theorem mem_optTake {l : List α} {a : α} {maxc : Option Nat}
    (h : a ∈ optTake maxc l) : a ∈ l := by
  cases maxc with
  | none => exact h
  | some m => exact List.take_subset m l h

theorem walkGo_length_le (last : Option String) (n : Nat) :
    ∀ (items : List (Except GitError RawCommit)) (count : Nat) (out : List CommitInfo),
      walkGo last (some n) count items = .ok out → count + out.length ≤ n ∨ out = [] := by
  intro items
  induction items with
  | nil =>
    intro count out h
    simp [walkGo] at h
    exact Or.inr h
  | cons item rest ih =>
    intro count out h
    by_cases hc : n ≤ count
    · simp [walkGo, capReached, hc] at h
      exact Or.inr h
    · cases item with
      | error e => simp [walkGo, capReached, hc] at h
      | ok c =>
        by_cases hl : last = some c.id
        · simp [walkGo, capReached, hc, hl] at h
          exact Or.inr h
        · simp [walkGo, capReached, hc, hl] at h
          cases hrec : walkGo last (some n) (count + 1) rest with
          | error e => rw [hrec] at h; cases h
          | ok tail =>
            rw [hrec] at h
            cases h
            rcases ih (count + 1) tail hrec with h1 | h1
            · left; simp only [List.length_cons]; omega
            · subst h1; left; simp only [List.length_cons, List.length_nil]; omega

/-- Claim C1: for every repository history, last_seen_id and max_count, the
history walker walks from head newest-first; its output equals the history
truncated (exclusively) at the first commit whose id is `last_seen_id` and
then capped at `max_count`; the output never contains that commit nor any of
its ancestors; and with no watermark it returns up to `max_count` newest
commits (all of history when uncapped).  Histories are linear per the
specification's non-goals, and commit ids are unique within a history per
the specification's data model. -/
theorem C1_history_walker (hist : List RawCommit) (last : Option String) (maxc : Option Nat)
    (hids : (hist.map RawCommit.id).Nodup) :
    get_new_commits_since (.ok (okStream hist)) last maxc
        = .ok ((optTake maxc (takeUntilSeen last hist)).map mkCommitInfo)
    ∧ (∀ x out, last = some x →
        get_new_commits_since (.ok (okStream hist)) last maxc = .ok out →
          x ∉ out.map CommitInfo.id
          ∧ ∀ c ∈ ancestorsIn hist x, c.id ∉ out.map CommitInfo.id)
    ∧ (last = none →
        get_new_commits_since (.ok (okStream hist)) last maxc
          = .ok ((optTake maxc hist).map mkCommitInfo)) := by
  refine ⟨get_new_commits_pure hist last maxc, ?_, ?_⟩
  · intro x out hlast hout
    subst hlast
    rw [get_new_commits_pure] at hout
    have hout2 : (optTake maxc (takeUntilSeen (some x) hist)).map mkCommitInfo = out := by
      simpa using hout
    have hid : out.map CommitInfo.id
        = (optTake maxc (takeUntilSeen (some x) hist)).map RawCommit.id := by
      rw [← hout2, List.map_map]
      rfl
    constructor
    · intro hx
      rw [hid] at hx
      obtain ⟨c, hcmem, hcid⟩ := List.mem_map.mp hx
      have hctw : c ∈ hist.takeWhile (fun c => c.id != x) := mem_optTake hcmem
      have := List.mem_takeWhile_imp hctw
      rw [bne_iff_ne] at this
      exact this hcid
    · intro c hc hmem
      rw [hid] at hmem
      obtain ⟨d, hdmem, hdid⟩ := List.mem_map.mp hmem
      have hdtw : d ∈ hist.takeWhile (fun c => c.id != x) := mem_optTake hdmem
      have hcdw : c ∈ hist.dropWhile (fun c => c.id != x) := by
        have : c ∈ (hist.dropWhile (fun c => c.id != x)).drop 1 := hc
        exact List.drop_subset 1 _ this
      have hnd : ((hist.takeWhile (fun c => c.id != x)).map RawCommit.id
          ++ (hist.dropWhile (fun c => c.id != x)).map RawCommit.id).Nodup := by
        rw [← List.map_append, List.takeWhile_append_dropWhile]
        exact hids
      have hdisj := List.disjoint_of_nodup_append hnd
      exact hdisj (List.mem_map_of_mem RawCommit.id hdtw)
        (hdid ▸ List.mem_map_of_mem RawCommit.id hcdw)
  · intro hlast
    subst hlast
    exact get_new_commits_pure hist none maxc

/-- Witness for C1 on a two-commit history with the older commit as the
watermark. -/
theorem C1_history_walker_witness :
    (([⟨"c2", 2, none, none, none⟩, ⟨"c1", 1, none, none, none⟩] :
        List RawCommit).map RawCommit.id).Nodup
    ∧ get_new_commits_since
        (.ok (okStream [⟨"c2", 2, none, none, none⟩, ⟨"c1", 1, none, none, none⟩]))
        (some "c1") none
      = .ok ((optTake none (takeUntilSeen (some "c1")
          [⟨"c2", 2, none, none, none⟩, ⟨"c1", 1, none, none, none⟩])).map mkCommitInfo) :=
  ⟨by decide, (C1_history_walker _ (some "c1") none (by decide)).1⟩

/-- Claim C9: the cap is tested before the last-seen comparison on every
step, so with `max_commits = some n` the walker emits at most `n` records,
and with `some 0` it returns the empty list without inspecting any stream
item (even an item that is a read error). -/
theorem C9_cap_before_last_seen :
    (∀ (items : List (Except GitError RawCommit)) (last : Option String) (n : Nat)
        (out : List CommitInfo),
        get_new_commits_since (.ok items) last (some n) = .ok out → out.length ≤ n)
    ∧ ∀ (items : List (Except GitError RawCommit)) (last : Option String),
        get_new_commits_since (.ok items) last (some 0) = .ok [] := by
  constructor
  · intro items last n out h
    simp only [get_new_commits_since] at h
    rcases walkGo_length_le last n items 0 out h with h1 | h1
    · omega
    · subst h1; simp
  · intro items last
    cases items with
    | nil => rfl
    | cons item rest => simp [get_new_commits_since, walkGo, capReached]

/-- Witness for C9: a stream whose only item is a read error still yields
the empty list under a zero cap, and a one-commit walk respects the cap. -/
theorem C9_cap_before_last_seen_witness :
    get_new_commits_since (.ok [.error ⟨"boom"⟩]) (some "x") (some 0) = .ok []
    ∧ ([mkCommitInfo ⟨"a", 1, none, none, none⟩].length ≤ 1) :=
  ⟨C9_cap_before_last_seen.2 [.error ⟨"boom"⟩] (some "x"),
   C9_cap_before_last_seen.1 [.ok ⟨"a", 1, none, none, none⟩] none 1
     [mkCommitInfo ⟨"a", 1, none, none, none⟩] (by decide)⟩

/-! ## Report rendering (src/src/main.rs lines 161-229) -/

/-- Index of the first occurrence of `pat` inside a list, as Rust
`str::find(pat)` computes it. -/
def findSubIdx (pat : List Char) : List Char → Option Nat
  | [] => if pat.isPrefixOf [] then some 0 else none
  | c :: t =>
    if pat.isPrefixOf (c :: t) then some 0
    else (findSubIdx pat t).map (fun i => i + 1)

/-- `trim_after_domain` of src/src/main.rs lines 161-172: drop the scheme
separator to locate the bare remainder, then cut the original string at the
first slash of that remainder, reproducing the Rust index arithmetic
`url[..pos + (url.len() - url_no_scheme.len())]`. -/
def trim_after_domain (url : String) : String :=
  match findSubIdx "://".data url.data with
  | some p =>
    match (url.data.drop (p + 3)).findIdx? (fun c => c == '/') with
    | some pos => ⟨url.data.take (pos + (url.data.length - (url.data.drop (p + 3)).length))⟩
    | none => url
  | none =>
    match url.data.findIdx? (fun c => c == '/') with
    | some pos => ⟨url.data.take (pos + (url.data.length - url.data.length))⟩
    | none => url

/-- The `patch_url` chain of src/src/main.rs lines 189-203: ordered host
tests by substring, each stripping every trailing `.git`; the gerrit branch
additionally requires a change id and keeps only scheme and authority. -/
def patch_url (repo : String) (c : CommitInfo) : String :=
  if strContains repo "github.com" then
    trimEndMatches repo ".git" ++ "/commit/" ++ c.id
  else if strContains repo "gitlab.com" then
    trimEndMatches repo ".git" ++ "/-/commit/" ++ c.id ++ ".patch"
  else if strContains repo "bitbucket.org" then
    trimEndMatches repo ".git" ++ "/commits/" ++ c.id ++ ".patch"
  else if strContains repo "gerrit" && c.change_id.isSome then
    trim_after_domain (trimEndMatches repo ".git") ++ "/r/q/" ++ c.change_id.getD ""
  else c.id

/-- The `id_link` choice of src/src/main.rs lines 205-209: anchor exactly
when the derived link starts with "http". -/
def id_link (repo : String) (c : CommitInfo) : String :=
  if strStartsWith (patch_url repo c) "http" then
    "<a href=\"" ++ patch_url repo c ++ "\">" ++ c.id ++ "</a>"
  else c.id

/-- One table row (src/src/main.rs lines 211-214). -/
def render_row (repo : String) (c : CommitInfo) : String :=
  "<tr><td>" ++ id_link repo c ++ "</td><td>" ++ c.date ++ "</td><td>"
    ++ c.author ++ "</td><td>" ++ c.message ++ "</td></tr>"

/-- The section heading and table opening (src/src/main.rs lines 184-187). -/
def table_header (repo : String) : String :=
  "<h2>Repository: " ++ repo
    ++ "</h2><table border=\"1\"><tr><th>ID</th><th>Date</th><th>Author</th><th>Message</th></tr>"

/-- One repository section of the report. -/
def render_section (repo : String) (commits : List CommitInfo) : String :=
  table_header repo ++ String.join (commits.map (render_row repo)) ++ "</table>"

/-- The entries the loop of src/src/main.rs lines 180-217 renders: the
`continue` on line 182 skips every entry with an empty commit list. -/
def rendered_entries (agg : List (String × List CommitInfo)) : List (String × List CommitInfo) :=
  agg.filter (fun e => !e.2.isEmpty)

/-- The concatenated `tables` string built by the rendering loop. -/
def render_tables (agg : List (String × List CommitInfo)) : String :=
  String.join ((rendered_entries agg).map (fun e => render_section e.1 e.2))

/-- First occurrence split: `some (before, after)` with
`l = before ++ pat ++ after` at the first match. -/
def splitAtSub (pat : List Char) : List Char → Option (List Char × List Char)
  | [] => if pat.isPrefixOf [] then some ([], []) else none
  | c :: t =>
    if pat.isPrefixOf (c :: t) then some ([], (c :: t).drop pat.length)
    else (splitAtSub pat t).map (fun p => (c :: p.1, p.2))

/-- Fuelled left-to-right non-overlapping replacement, the semantics of Rust
`str::replace`; fuel `length + 1` always suffices for a non-empty pattern. -/
def replaceList (pat repl : List Char) : Nat → List Char → List Char
  | 0, l => l
  | fuel + 1, l =>
    match splitAtSub pat l with
    | some (before, after) => before ++ repl ++ replaceList pat repl fuel after
    | none => l

/-- Model of Rust `str::replace`. -/
def strReplace (s pat repl : String) : String :=
  ⟨replaceList pat.data repl.data (s.data.length + 1) s.data⟩

/-- The fallback document of src/src/main.rs lines 225-228. -/
def defaultWrapper (tables : String) : String :=
  "<html><body><h1>Git Commit Report</h1>" ++ tables ++ "</body></html>"

/-- `build_html_report_with_template` of src/src/main.rs lines 174-229.  The
template argument models the configured path and its read result:
`some (some t)` is a readable template with content `t`, `some none` a
configured but unreadable one (silent fallback), `none` no template. -/
def build_html_report_with_template (repo_commits : List (String × List CommitInfo))
    (template : Option (Option String)) : String :=
  let tables := render_tables repo_commits
  match template with
  | some (some t) => strReplace t "\x7b\x7btables\x7d\x7d" tables
  | some none => defaultWrapper tables
  | none => defaultWrapper tables

/-! ## Specification-side descriptions used by claims C5, C6 and C10 -/

/-- Concatenation of `n` copies of ".git", used to characterise repeated
suffix stripping. -/
def repGit : Nat → List Char
  | 0 => []
  | n + 1 => ".git".data ++ repGit n

/-- The claim's description of the gerrit base: the URL cut at the end of
its authority, scheme retained, every path segment removed. -/
def scheme_and_authority (url : String) : String :=
  match findSubIdx "://".data url.data with
  | some p =>
    ⟨url.data.take (p + 3) ++ (url.data.drop (p + 3)).takeWhile (fun c => !(c == '/'))⟩
  | none => ⟨url.data.takeWhile (fun c => !(c == '/'))⟩

/-- The authority component with the scheme stripped, the reading of C6's
words "the authority component of the URL (scheme ... stripped)". -/
def authority_no_scheme (url : String) : String :=
  match findSubIdx "://".data url.data with
  | some p => ⟨(url.data.drop (p + 3)).takeWhile (fun c => !(c == '/'))⟩
  | none => ⟨url.data.takeWhile (fun c => !(c == '/'))⟩

/-- A lowercase hexadecimal digit, the alphabet of git revision ids. -/
def isHexChar (ch : Char) : Bool :=
  ch.isDigit || ('a' ≤ ch && ch ≤ 'f')

/-! ## Helper lemmas for string reasoning -/

theorem isPrefixOf_iff_exists {p l : List Char} :
    p.isPrefixOf l = true ↔ ∃ t, l = p ++ t := by
  induction p generalizing l with
  | nil => simp [List.isPrefixOf]
  | cons a p ih =>
    cases l with
    | nil =>
      simp only [List.isPrefixOf, List.cons_append]
      constructor
      · intro h; cases h
      · rintro ⟨u, hu⟩; cases hu
    | cons b t =>
      simp only [List.isPrefixOf, Bool.and_eq_true, beq_iff_eq, ih, List.cons_append]
      constructor
      · rintro ⟨rfl, u, rfl⟩
        exact ⟨u, rfl⟩
      · rintro ⟨u, hu⟩
        injection hu with h1 h2
        exact ⟨h1.symm, u, h2⟩

theorem isSuffixOf_iff_exists {p l : List Char} :
    p.isSuffixOf l = true ↔ ∃ t, l = t ++ p := by
  simp only [List.isSuffixOf, isPrefixOf_iff_exists]
  constructor
  · rintro ⟨t, ht⟩
    refine ⟨t.reverse, ?_⟩
    have := congrArg List.reverse ht
    simpa using this
  · rintro ⟨t, rfl⟩
    exact ⟨t.reverse, by simp⟩

theorem isPrefixOf_append_self (p r : List Char) : p.isPrefixOf (p ++ r) = true :=
  isPrefixOf_iff_exists.mpr ⟨r, rfl⟩

theorem isPrefixOf_cons_ne {a b : Char} (as bs : List Char) (h : (a == b) = false) :
    (a :: as).isPrefixOf (b :: bs) = false := by
  simp [List.isPrefixOf, h]

theorem repGit_snoc (n : Nat) : repGit n ++ ".git".data = repGit (n + 1) := by
  induction n with
  | zero => simp [repGit]
  | succ n ih => simp only [repGit, List.append_assoc, ih]

/-- Repeated suffix stripping, characterised: the input is the stripped
result followed by some number of ".git" copies, and the result has no
further ".git" suffix. -/
theorem trimEndList_git_spec :
    ∀ (fuel : Nat) (l : List Char), l.length ≤ fuel →
      ∃ n, l = trimEndList ".git".data fuel l ++ repGit n
        ∧ ".git".data.isSuffixOf (trimEndList ".git".data fuel l) = false := by
  intro fuel
  induction fuel with
  | zero =>
    intro l hl
    have hnil : l = [] := List.length_eq_zero.mp (Nat.le_zero.mp hl)
    subst hnil
    exact ⟨0, by simp [trimEndList, repGit], by decide⟩
  | succ fuel ih =>
    intro l hl
    by_cases h : (".git".data ≠ [] ∧ ".git".data.isSuffixOf l)
    · obtain ⟨t, ht⟩ := isSuffixOf_iff_exists.mp h.2
      subst ht
      have hlen : (t ++ ".git".data).length - ".git".data.length = t.length := by
        simp [List.length_append]
      have htake : (t ++ ".git".data).take ((t ++ ".git".data).length - ".git".data.length)
          = t := by
        rw [hlen]; exact List.take_left t _
      have hstep : trimEndList ".git".data (fuel + 1) (t ++ ".git".data)
          = trimEndList ".git".data fuel t := by
        rw [trimEndList, if_pos h, htake]
      have htlen : t.length ≤ fuel := by
        have := hl
        simp only [List.length_append] at this
        have h4 : ".git".data.length = 4 := by decide
        omega
      obtain ⟨n, hn1, hn2⟩ := ih t htlen
      refine ⟨n + 1, ?_, ?_⟩
      · rw [hstep, ← repGit_snoc, ← List.append_assoc, ← hn1]
      · rw [hstep]; exact hn2
    · have hstep : trimEndList ".git".data (fuel + 1) l = l := by
        rw [trimEndList, if_neg h]
      refine ⟨0, by simp [hstep, repGit], ?_⟩
      rw [hstep]
      cases hs : ".git".data.isSuffixOf l with
      | false => rfl
      | true => exact absurd ⟨by decide, hs⟩ h

/-- The same characterisation for the string-level wrapper. -/
theorem trimEndMatches_git_spec (s : String) :
    ∃ n, s.data = (trimEndMatches s ".git").data ++ repGit n
      ∧ ".git".data.isSuffixOf (trimEndMatches s ".git").data = false :=
  trimEndList_git_spec s.data.length s.data (Nat.le_refl _)

theorem findSubIdx_bound {pat : List Char} :
    ∀ {d : List Char} {p : Nat}, findSubIdx pat d = some p → p + pat.length ≤ d.length := by
  intro d
  induction d with
  | nil =>
    intro p h
    rw [findSubIdx] at h
    by_cases hp : pat.isPrefixOf [] = true
    · obtain ⟨t, ht⟩ := isPrefixOf_iff_exists.mp hp
      obtain ⟨hp1, _⟩ := List.append_eq_nil.mp ht.symm
      rw [if_pos hp] at h
      injection h with h
      simp [← h, hp1]
    · rw [if_neg hp] at h
      cases h
  | cons c t ih =>
    intro p h
    rw [findSubIdx] at h
    by_cases hp : pat.isPrefixOf (c :: t) = true
    · rw [if_pos hp] at h
      injection h with h
      obtain ⟨u, hu⟩ := isPrefixOf_iff_exists.mp hp
      have hlen := congrArg List.length hu
      simp only [List.length_cons, List.length_append] at hlen
      simp only [List.length_cons]
      omega
    · rw [if_neg hp] at h
      cases hf : findSubIdx pat t with
      | none => rw [hf] at h; cases h
      | some q =>
        rw [hf] at h
        simp only [Option.map_some'] at h
        injection h with h
        have := ih hf
        simp only [List.length_cons]
        omega

theorem take_findIdx_eq_takeWhile {p : Char → Bool} :
    ∀ {l : List Char} {i : Nat}, l.findIdx? p = some i →
      l.take i = l.takeWhile (fun a => !p a) := by
  intro l
  induction l with
  | nil => intro i h; simp [List.findIdx?] at h
  | cons a t ih =>
    intro i h
    have hc : (a :: t).findIdx? p
        = if p a then some 0 else (t.findIdx? p).map (fun j => j + 1) := by
      simp [List.findIdx?_cons]
    rw [hc] at h
    by_cases hpa : p a = true
    · rw [if_pos hpa] at h
      injection h with h
      simp [← h, List.takeWhile_cons, hpa]
    · rw [if_neg hpa] at h
      cases hf : t.findIdx? p with
      | none => rw [hf] at h; cases h
      | some j =>
        rw [hf] at h
        simp only [Option.map_some'] at h
        injection h with h
        have hb : (!p a) = true := by simp [hpa]
        simp [← h, List.takeWhile_cons, hb, ih hf]

theorem takeWhile_eq_self_of_findIdx_none {p : Char → Bool} :
    ∀ {l : List Char}, l.findIdx? p = none → l.takeWhile (fun a => !p a) = l := by
  intro l
  induction l with
  | nil => intro h; rfl
  | cons a t ih =>
    intro h
    have hc : (a :: t).findIdx? p
        = if p a then some 0 else (t.findIdx? p).map (fun j => j + 1) := by
      simp [List.findIdx?_cons]
    rw [hc] at h
    by_cases hpa : p a = true
    · rw [if_pos hpa] at h; cases h
    · rw [if_neg hpa] at h
      cases hf : t.findIdx? p with
      | some j => rw [hf] at h; simp at h
      | none =>
        have hb : (!p a) = true := by simp [hpa]
        simp [List.takeWhile_cons, hb, ih hf]

/-- The Rust slice arithmetic of `trim_after_domain` computes exactly
"scheme kept, path removed": the URL truncated at the first slash after the
scheme separator. -/
theorem trim_after_domain_eq_spec (url : String) :
    trim_after_domain url = scheme_and_authority url := by
  cases hf : findSubIdx "://".data url.data with
  | none =>
    cases hi : url.data.findIdx? (fun c => c == '/') with
    | none =>
      simp only [trim_after_domain, scheme_and_authority, hf, hi,
        takeWhile_eq_self_of_findIdx_none hi]
    | some pos =>
      simp only [trim_after_domain, scheme_and_authority, hf, hi,
        ← take_findIdx_eq_takeWhile hi, Nat.sub_self, Nat.add_zero]
  | some p =>
    have hb := findSubIdx_bound hf
    have h3 : ("://".data).length = 3 := by decide
    cases hi : (url.data.drop (p + 3)).findIdx? (fun c => c == '/') with
    | none =>
      simp only [trim_after_domain, scheme_and_authority, hf, hi,
        takeWhile_eq_self_of_findIdx_none hi, List.take_append_drop]
    | some pos =>
      have h1 : url.data.length - (url.data.drop (p + 3)).length = p + 3 := by
        rw [List.length_drop]; omega
      simp only [trim_after_domain, scheme_and_authority, hf, hi,
        ← take_findIdx_eq_takeWhile hi, h1]
      rw [Nat.add_comm pos (p + 3), List.take_add]

/-- Counterexample to C5 as stated: `trim_end_matches(".git")` removes every
trailing ".git" occurrence, not just one, and the host tests are an ordered
chain, so a URL containing both "gitlab.com" and "github.com" is formatted
by the GitHub rule, not the GitLab one. -/
theorem C5_counterexample :
    (strContains "https://github.com/a/b.git.git" "github.com" = true
      ∧ strEndsWith "https://github.com/a/b.git.git" ".git" = true
      ∧ patch_url "https://github.com/a/b.git.git" ⟨"abc", "", "", "", none⟩
          ≠ "https://github.com/a/b.git" ++ "/commit/" ++ "abc")
    ∧ (strContains "https://gitlab.com/a/github.com.git" "gitlab.com" = true
      ∧ strEndsWith "https://gitlab.com/a/github.com.git" ".git" = true
      ∧ patch_url "https://gitlab.com/a/github.com.git" ⟨"abc", "", "", "", none⟩
          ≠ "https://gitlab.com/a/github.com" ++ "/-/commit/" ++ "abc" ++ ".patch") := by
  refine ⟨⟨by decide, by decide, by decide⟩, by decide, by decide, by decide⟩

/-- Claim C5 (amended): link derivation is total and host-keyed with the
code's test order — a URL containing "github.com" maps to the URL with all
trailing ".git" occurrences removed plus the commit path suffix; a URL
containing "gitlab.com" but not "github.com" maps to the stripped URL plus
the GitLab patch suffix; a URL containing "bitbucket.org" but neither of
the former maps to the stripped URL plus the Bitbucket patch suffix; for a
URL matching no recognised host and a commit with no change-tracking token
the rendered cell is the bare (hexadecimal) identifier with no anchor. -/
theorem C5_link_derivation (repo : String) (c : CommitInfo) :
    (strContains repo "github.com" = true →
      ∃ stripped n, repo.data = stripped.data ++ repGit n
        ∧ ".git".data.isSuffixOf stripped.data = false
        ∧ patch_url repo c = stripped ++ "/commit/" ++ c.id)
    ∧ (strContains repo "github.com" = false → strContains repo "gitlab.com" = true →
      ∃ stripped n, repo.data = stripped.data ++ repGit n
        ∧ ".git".data.isSuffixOf stripped.data = false
        ∧ patch_url repo c = stripped ++ "/-/commit/" ++ c.id ++ ".patch")
    ∧ (strContains repo "github.com" = false → strContains repo "gitlab.com" = false →
        strContains repo "bitbucket.org" = true →
      ∃ stripped n, repo.data = stripped.data ++ repGit n
        ∧ ".git".data.isSuffixOf stripped.data = false
        ∧ patch_url repo c = stripped ++ "/commits/" ++ c.id ++ ".patch")
    ∧ (strContains repo "github.com" = false → strContains repo "gitlab.com" = false →
        strContains repo "bitbucket.org" = false → c.change_id = none →
        (∀ ch ∈ c.id.data, isHexChar ch = true) →
        patch_url repo c = c.id ∧ id_link repo c = c.id) := by
  refine ⟨?_, ?_, ?_, ?_⟩
  · intro h1
    obtain ⟨n, hn, hs⟩ := trimEndMatches_git_spec repo
    exact ⟨trimEndMatches repo ".git", n, hn, hs, by simp [patch_url, h1]⟩
  · intro h1 h2
    obtain ⟨n, hn, hs⟩ := trimEndMatches_git_spec repo
    exact ⟨trimEndMatches repo ".git", n, hn, hs, by simp [patch_url, h1, h2]⟩
  · intro h1 h2 h3
    obtain ⟨n, hn, hs⟩ := trimEndMatches_git_spec repo
    exact ⟨trimEndMatches repo ".git", n, hn, hs, by simp [patch_url, h1, h2, h3]⟩
  · intro h1 h2 h3 hcid hhex
    have hp : patch_url repo c = c.id := by
      simp [patch_url, h1, h2, h3, hcid]
    have hid : strStartsWith c.id "http" = false := by
      cases hh : strStartsWith c.id "http" with
      | false => rfl
      | true =>
        exfalso
        simp only [strStartsWith] at hh
        obtain ⟨t, ht⟩ := isPrefixOf_iff_exists.mp hh
        have hmem : 'h' ∈ c.id.data := by
          rw [ht]; simp
        have := hhex 'h' hmem
        exact absurd this (by decide)
    have hfalse : strStartsWith (patch_url repo c) "http" = false := by
      rw [hp]; exact hid
    exact ⟨hp, by simp [id_link, hfalse]⟩

/-- Witness for C5 (amended) on a plain GitHub URL. -/
theorem C5_link_derivation_witness :
    ∃ stripped n, ("https://github.com/x/y.git" : String).data = stripped.data ++ repGit n
      ∧ ".git".data.isSuffixOf stripped.data = false
      ∧ patch_url "https://github.com/x/y.git" ⟨"abc", "", "", "", none⟩
          = stripped ++ "/commit/" ++ "abc" :=
  (C5_link_derivation "https://github.com/x/y.git" ⟨"abc", "", "", "", none⟩).1 (by decide)

/-- Counterexample to C6 as stated: the review URL the code derives keeps
the scheme; it is not built from the authority component with the scheme
stripped. -/
theorem C6_counterexample :
    strContains "https://gerrit.example.org/project" "gerrit" = true
    ∧ strContains "https://gerrit.example.org/project" "github.com" = false
    ∧ strContains "https://gerrit.example.org/project" "gitlab.com" = false
    ∧ strContains "https://gerrit.example.org/project" "bitbucket.org" = false
    ∧ patch_url "https://gerrit.example.org/project" ⟨"abc", "", "", "", some "I1"⟩
        = "https://gerrit.example.org/r/q/I1"
    ∧ authority_no_scheme (trimEndMatches "https://gerrit.example.org/project" ".git")
        ++ "/r/q/" ++ "I1" = "gerrit.example.org/r/q/I1"
    ∧ patch_url "https://gerrit.example.org/project" ⟨"abc", "", "", "", some "I1"⟩
        ≠ authority_no_scheme (trimEndMatches "https://gerrit.example.org/project" ".git")
          ++ "/r/q/" ++ "I1" := by
  refine ⟨by decide, by decide, by decide, by decide, by decide, by decide, by decide⟩

/-- Claim C6 (amended): for a gerrit-like URL (substring "gerrit", none of
the other host substrings) and a commit with a change-tracking token, the
review URL is the repository URL truncated at the end of its authority —
scheme retained, the whole path stripped — after removing trailing ".git"
occurrences, followed by "/r/q/" and the token. -/
theorem C6_gerrit_review_url (repo : String) (c : CommitInfo) (token : String)
    (h1 : strContains repo "github.com" = false)
    (h2 : strContains repo "gitlab.com" = false)
    (h3 : strContains repo "bitbucket.org" = false)
    (h4 : strContains repo "gerrit" = true)
    (h5 : c.change_id = some token) :
    patch_url repo c
      = scheme_and_authority (trimEndMatches repo ".git") ++ "/r/q/" ++ token := by
  rw [← trim_after_domain_eq_spec]
  simp [patch_url, h1, h2, h3, h4, h5]

/-- Witness for C6 (amended) on a concrete gerrit URL. -/
theorem C6_gerrit_review_url_witness :
    patch_url "https://gerrit.example.org/project" ⟨"abc", "", "", "", some "I1"⟩
      = scheme_and_authority (trimEndMatches "https://gerrit.example.org/project" ".git")
        ++ "/r/q/" ++ "I1" :=
  C6_gerrit_review_url "https://gerrit.example.org/project" ⟨"abc", "", "", "", some "I1"⟩
    "I1" (by decide) (by decide) (by decide) (by decide) (by decide)

/-- Claim C10: the rendered identifier is wrapped in an anchor exactly when
the derived link starts with "http"; in particular an ssh-form GitHub URL
renders the identifier bare. -/
theorem C10_anchor_iff (repo : String) (c : CommitInfo)
    (hhex : ∀ ch ∈ c.id.data, isHexChar ch = true) :
    (strStartsWith (id_link repo c) "<a href=" = true
      ↔ strStartsWith (patch_url repo c) "http" = true)
    ∧ ∀ d : CommitInfo, id_link "git@github.com:a/b.git" d = d.id := by
  constructor
  · constructor
    · intro ha
      by_contra hp
      have hp' : strStartsWith (patch_url repo c) "http" = false := by
        cases h : strStartsWith (patch_url repo c) "http" with
        | false => rfl
        | true => exact absurd h hp
      simp only [id_link, hp', Bool.false_eq_true, if_false] at ha
      simp only [strStartsWith] at ha
      obtain ⟨t, ht⟩ := isPrefixOf_iff_exists.mp ha
      have hmem : '<' ∈ c.id.data := by
        rw [ht]; simp
      have := hhex '<' hmem
      exact absurd this (by decide)
    · intro hp
      simp only [id_link, hp, if_true]
      simp only [strStartsWith, String.data_append]
      have hsplit : (['<', 'a', ' ', 'h', 'r', 'e', 'f', '=', '\"'] : List Char)
          = ['<', 'a', ' ', 'h', 'r', 'e', 'f', '='] ++ ['\"'] := by decide
      rw [hsplit]
      simp only [List.append_assoc]
      exact isPrefixOf_append_self _ _
  · intro d
    have h1 : strContains "git@github.com:a/b.git" "github.com" = true := by decide
    have h2 : trimEndMatches "git@github.com:a/b.git" ".git" = "git@github.com:a/b" := by
      decide
    have hfa : strStartsWith ("git@github.com:a/b/commit/" ++ d.id) "http" = false := by
      simp only [strStartsWith, String.data_append, List.cons_append]
      exact isPrefixOf_cons_ne _ _ (by decide)
    simp [id_link, patch_url, h1, h2, hfa]

/-- Witness for C10 on a hexadecimal commit id. -/
theorem C10_anchor_iff_witness :
    (strStartsWith (id_link "https://github.com/x/y.git" ⟨"abc", "", "", "", none⟩) "<a href="
        = true
      ↔ strStartsWith (patch_url "https://github.com/x/y.git" ⟨"abc", "", "", "", none⟩)
          "http" = true)
    ∧ id_link "git@github.com:a/b.git" ⟨"abc", "", "", "", none⟩ = "abc" :=
  ⟨(C10_anchor_iff "https://github.com/x/y.git" ⟨"abc", "", "", "", none⟩ (by decide)).1,
   (C10_anchor_iff "https://github.com/x/y.git" ⟨"abc", "", "", "", none⟩ (by decide)).2
     ⟨"abc", "", "", "", none⟩⟩

/-! ## Watermark state and the orchestrator loop (src/src/main.rs lines 43-46, 274-353) -/

/-- The `State` struct of src/src/main.rs lines 43-46: the watermark map
from repository URL to last-seen commit id.  The `BTreeMap` is modelled as
an association list with the same lookup and insert-or-replace semantics
(entry order is irrelevant to every claim). -/
structure State where
  last_seen : List (String × String)
deriving DecidableEq

/-- Map lookup, the model of `BTreeMap::get` (and `HashMap::get`). -/
def alistGet {β : Type} : List (String × β) → String → Option β
  | [], _ => none
  | (k, v) :: t, key => if k = key then some v else alistGet t key

/-- Map insert-or-replace, the model of `BTreeMap::insert` (and
`HashMap::insert`). -/
def alistInsert {β : Type} : List (String × β) → String → β → List (String × β)
  | [], key, val => [(key, val)]
  | (k, v) :: t, key, val =>
    if k = key then (k, val) :: t else (k, v) :: alistInsert t key val

/-- The per-repository external outcomes of one run: the result of
`clone_or_update_repo` (src/src/main.rs line 313) and of opening the mirror
and walking its history (the git2 reads inside `get_new_commits_since`). -/
structure Env where
  prepare : String → Except GitError Unit
  openWalk : String → Except GitError (List (Except GitError RawCommit))

/-- One iteration of the repository loop of src/src/main.rs lines 311-333
as a pure transformation of (watermark state, commit aggregate): a prepare
failure, a walk failure or an empty commit list leaves both untouched; a
non-empty commit list stages the newest commit id as the watermark and
records the list in the aggregate. -/
def process_repo (env : Env) (maxc : Option Nat)
    (acc : State × List (String × List CommitInfo)) (url : String) :
    State × List (String × List CommitInfo) :=
  match env.prepare url with
  | .error _ => acc
  | .ok _ =>
    match get_new_commits_since (env.openWalk url) (alistGet acc.1.last_seen url) maxc with
    | .ok [] => acc
    | .ok (c0 :: rest) =>
      (⟨alistInsert acc.1.last_seen url c0.id⟩, alistInsert acc.2 url (c0 :: rest))
    | .error _ => acc

/-- The whole repository loop of `main`: a fold over the configured URL
list starting from the loaded state and an empty aggregate. -/
def run_repos (env : Env) (maxc : Option Nat) (repos : List String) (st0 : State) :
    State × List (String × List CommitInfo) :=
  repos.foldl (process_repo env maxc) (st0, [])

theorem alistGet_insert_self {β : Type} (m : List (String × β)) (k : String) (v : β) :
    alistGet (alistInsert m k v) k = some v := by
  induction m with
  | nil => simp [alistInsert, alistGet]
  | cons e t ih =>
    obtain ⟨k2, v2⟩ := e
    by_cases h : k2 = k
    · simp [alistInsert, alistGet, h]
    · simp [alistInsert, alistGet, h, ih]

theorem alistGet_insert_ne {β : Type} (m : List (String × β)) (k k' : String) (v : β)
    (h : k' ≠ k) : alistGet (alistInsert m k' v) k = alistGet m k := by
  induction m with
  | nil => simp [alistInsert, alistGet, h]
  | cons e t ih =>
    obtain ⟨k2, v2⟩ := e
    by_cases h2 : k2 = k'
    · subst h2
      have hk : ¬k2 = k := fun he => h (he ▸ rfl)
      simp [alistInsert, alistGet, hk]
    · simp [alistInsert, alistGet, h2, ih]

theorem not_mem_fst_of_get_none {β : Type} {m : List (String × β)} {k : String}
    (h : alistGet m k = none) : k ∉ m.map Prod.fst := by
  induction m with
  | nil => simp
  | cons e t ih =>
    obtain ⟨k2, v2⟩ := e
    intro hmem
    simp only [List.map_cons, List.mem_cons] at hmem
    by_cases h2 : k2 = k
    · simp [alistGet, h2] at h
    · simp only [alistGet, if_neg h2] at h
      rcases hmem with h3 | h3
      · exact h2 h3.symm
      · exact ih h h3

theorem not_mem_rendered_of_not_mem (agg : List (String × List CommitInfo)) (k : String)
    (h : k ∉ agg.map Prod.fst) : k ∉ (rendered_entries agg).map Prod.fst := by
  intro hm
  obtain ⟨e, he, hfe⟩ := List.mem_map.mp hm
  exact h (List.mem_map.mpr ⟨e, List.mem_of_mem_filter he, hfe⟩)

theorem process_repo_frame (env : Env) (maxc : Option Nat)
    (acc : State × List (String × List CommitInfo)) (url url' : String) (h : url' ≠ url) :
    alistGet (process_repo env maxc acc url').1.last_seen url = alistGet acc.1.last_seen url
    ∧ alistGet (process_repo env maxc acc url').2 url = alistGet acc.2 url := by
  unfold process_repo
  cases env.prepare url' with
  | error e => exact ⟨rfl, rfl⟩
  | ok u =>
    cases get_new_commits_since (env.openWalk url') (alistGet acc.1.last_seen url') maxc with
    | error e => exact ⟨rfl, rfl⟩
    | ok commits =>
      cases commits with
      | nil => exact ⟨rfl, rfl⟩
      | cons c0 rest =>
        exact ⟨alistGet_insert_ne _ _ _ _ h, alistGet_insert_ne _ _ _ _ h⟩

theorem run_fold_frame (env : Env) (maxc : Option Nat) (url : String) :
    ∀ (l : List String) (acc : State × List (String × List CommitInfo)), url ∉ l →
      alistGet (l.foldl (process_repo env maxc) acc).1.last_seen url
          = alistGet acc.1.last_seen url
      ∧ alistGet (l.foldl (process_repo env maxc) acc).2 url = alistGet acc.2 url := by
  intro l
  induction l with
  | nil => intro acc h; exact ⟨rfl, rfl⟩
  | cons u t ih =>
    intro acc h
    have hne : u ≠ url := fun he => h (by rw [he]; exact List.mem_cons_self _ _)
    have hf := process_repo_frame env maxc acc url u hne
    have ht := ih (process_repo env maxc acc u) (fun hm => h (List.mem_cons_of_mem _ hm))
    exact ⟨ht.1.trans hf.1, ht.2.trans hf.2⟩

theorem process_repo_hit (env : Env) (maxc : Option Nat)
    (acc : State × List (String × List CommitInfo)) (url : String)
    (c0 : CommitInfo) (cs : List CommitInfo)
    (hprep : env.prepare url = .ok ())
    (hwalk : get_new_commits_since (env.openWalk url) (alistGet acc.1.last_seen url) maxc
        = .ok (c0 :: cs)) :
    alistGet (process_repo env maxc acc url).1.last_seen url = some c0.id
    ∧ alistGet (process_repo env maxc acc url).2 url = some (c0 :: cs) := by
  unfold process_repo
  rw [hprep, hwalk]
  exact ⟨alistGet_insert_self _ _ _, alistGet_insert_self _ _ _⟩

theorem process_repo_miss (env : Env) (maxc : Option Nat)
    (acc : State × List (String × List CommitInfo)) (url : String)
    (hzero : (∃ e, env.prepare url = .error e)
      ∨ (∃ e, get_new_commits_since (env.openWalk url) (alistGet acc.1.last_seen url) maxc
            = .error e)
      ∨ get_new_commits_since (env.openWalk url) (alistGet acc.1.last_seen url) maxc
          = .ok []) :
    process_repo env maxc acc url = acc := by
  unfold process_repo
  rcases hzero with ⟨e, he⟩ | ⟨e, he⟩ | he
  · rw [he]
  · cases env.prepare url with
    | error e2 => rfl
    | ok u => rw [he]
  · cases env.prepare url with
    | error e2 => rfl
    | ok u => rw [he]

/-- Claim C2: for every run and repository, if the walk succeeds with a
non-empty newest-first commit list, the in-memory watermark entry for that
repository ends the run holding the identifier of element 0 of that list. -/
theorem C2_watermark_update (env : Env) (maxc : Option Nat) (repos : List String)
    (st0 : State) (url : String) (c0 : CommitInfo) (cs : List CommitInfo)
    (hnd : repos.Nodup) (hmem : url ∈ repos)
    (hprep : env.prepare url = .ok ())
    (hwalk : get_new_commits_since (env.openWalk url) (alistGet st0.last_seen url) maxc
        = .ok (c0 :: cs)) :
    alistGet (run_repos env maxc repos st0).1.last_seen url = some c0.id := by
  obtain ⟨l1, l2, rfl⟩ := List.append_of_mem hmem
  rw [List.nodup_append] at hnd
  have hn1 : url ∉ l1 := fun hm => hnd.2.2 hm (List.mem_cons_self _ _)
  have hn2 : url ∉ l2 := (List.nodup_cons.mp hnd.2.1).1
  unfold run_repos
  rw [List.foldl_append, List.foldl_cons]
  have hf1 := run_fold_frame env maxc url l1 (st0, []) hn1
  have hwalk' : get_new_commits_since (env.openWalk url)
      (alistGet (l1.foldl (process_repo env maxc) (st0, [])).1.last_seen url) maxc
      = .ok (c0 :: cs) := by
    rw [hf1.1]; exact hwalk
  have hhit := process_repo_hit env maxc (l1.foldl (process_repo env maxc) (st0, [])) url
    c0 cs hprep hwalk'
  have hf2 := run_fold_frame env maxc url l2
    (process_repo env maxc (l1.foldl (process_repo env maxc) (st0, [])) url) hn2
  exact hf2.1.trans hhit.1

/-- A two-repository environment for concrete runs: "r1" carries two
commits and prepares fine, "r2" fails to prepare. -/
def sampleEnv : Env where
  prepare := fun url => if url = "r2" then .error ⟨"clone failed"⟩ else .ok ()
  openWalk := fun _ =>
    .ok (okStream [⟨"c2", 2, none, none, none⟩, ⟨"c1", 1, none, none, none⟩])

/-- Witness for C2: after a run over "r1" (watermark "c1") the stored value
is the id of the newest observed commit "c2". -/
theorem C2_watermark_update_witness :
    alistGet (run_repos sampleEnv none ["r1", "r2"] ⟨[("r1", "c1")]⟩).1.last_seen "r1"
      = some (mkCommitInfo ⟨"c2", 2, none, none, none⟩).id :=
  C2_watermark_update sampleEnv none ["r1", "r2"] ⟨[("r1", "c1")]⟩ "r1"
    (mkCommitInfo ⟨"c2", 2, none, none, none⟩) [] (by decide) (by decide) (by decide) (by decide)

/-- Claim C4: a repository that yields zero new commits (or whose mirror
preparation or history walk fails) leaves its watermark entry exactly as
loaded, gets no aggregate entry, and appears in no rendered section of the
report. -/
theorem C4_zero_commits_frame (env : Env) (maxc : Option Nat) (repos : List String)
    (st0 : State) (url : String)
    (hnd : repos.Nodup) (hmem : url ∈ repos)
    (hzero : (∃ e, env.prepare url = .error e)
      ∨ (∃ e, get_new_commits_since (env.openWalk url) (alistGet st0.last_seen url) maxc
            = .error e)
      ∨ get_new_commits_since (env.openWalk url) (alistGet st0.last_seen url) maxc
          = .ok []) :
    alistGet (run_repos env maxc repos st0).1.last_seen url = alistGet st0.last_seen url
    ∧ alistGet (run_repos env maxc repos st0).2 url = none
    ∧ url ∉ (rendered_entries (run_repos env maxc repos st0).2).map Prod.fst := by
  obtain ⟨l1, l2, rfl⟩ := List.append_of_mem hmem
  rw [List.nodup_append] at hnd
  have hn1 : url ∉ l1 := fun hm => hnd.2.2 hm (List.mem_cons_self _ _)
  have hn2 : url ∉ l2 := (List.nodup_cons.mp hnd.2.1).1
  unfold run_repos
  rw [List.foldl_append, List.foldl_cons]
  have hf1 := run_fold_frame env maxc url l1 (st0, []) hn1
  rw [← hf1.1] at hzero
  have hmiss := process_repo_miss env maxc (l1.foldl (process_repo env maxc) (st0, [])) url hzero
  rw [hmiss]
  have hf2 := run_fold_frame env maxc url l2 (l1.foldl (process_repo env maxc) (st0, [])) hn2
  have hagg : alistGet ((l2.foldl (process_repo env maxc)
      (l1.foldl (process_repo env maxc) (st0, [])))).2 url = none :=
    hf2.2.trans hf1.2
  refine ⟨?_, hagg, ?_⟩
  · exact hf2.1.trans hf1.1
  · exact not_mem_rendered_of_not_mem _ url (not_mem_fst_of_get_none hagg)

/-- Witness for C4: repository "r2", whose preparation fails, is untouched
by a run over ["r1", "r2"]. -/
theorem C4_zero_commits_frame_witness :
    alistGet (run_repos sampleEnv none ["r1", "r2"] ⟨[("r1", "c1")]⟩).1.last_seen "r2"
        = alistGet (⟨[("r1", "c1")]⟩ : State).last_seen "r2"
    ∧ alistGet (run_repos sampleEnv none ["r1", "r2"] ⟨[("r1", "c1")]⟩).2 "r2" = none
    ∧ "r2" ∉ (rendered_entries
        (run_repos sampleEnv none ["r1", "r2"] ⟨[("r1", "c1")]⟩).2).map Prod.fst :=
  C4_zero_commits_frame sampleEnv none ["r1", "r2"] ⟨[("r1", "c1")]⟩ "r2"
    (by decide) (by decide) (Or.inl ⟨⟨"clone failed"⟩, by decide⟩)

/-! ## The delivery phase of `main` (src/src/main.rs lines 335-353) -/

/-- The externally visible effects of the delivery phase. -/
inductive Effect where
  | writeReport : String → String → Effect
  | sendEmail : String → String → String → String → Effect
  | saveState : State → Effect
  | logInfo : String → Effect
  | logError : String → Effect
deriving DecidableEq

/-- The tail of `main` (src/src/main.rs lines 335-353) as an effect trace:
with a non-empty aggregate the report is rendered and delivered — a file
write when an output path is given, else an email — the outcome is logged,
and `save_state` runs afterwards in either case; with an empty aggregate
only a log line is produced.  `deliveryOk` is the success of the external
write or send. -/
def main_finish (repo_commits : List (String × List CommitInfo)) (st : State)
    (output : Option String) (template : Option (Option String))
    (sender recipient token : String) (deliveryOk : Bool) : List Effect :=
  if repo_commits.isEmpty then [Effect.logInfo "No new commits found."]
  else
    let html := build_html_report_with_template repo_commits template
    match output with
    | some path =>
      [Effect.writeReport path html,
        if deliveryOk then Effect.logInfo "Report written"
        else Effect.logError "Failed to write report",
        Effect.saveState st]
    | none =>
      [Effect.sendEmail sender recipient token html,
        if deliveryOk then Effect.logInfo "Email sent successfully."
        else Effect.logError "Failed to send email",
        Effect.saveState st]

/-- Claim C3: whenever the aggregate is non-empty the staged watermark map
is saved, for every delivery mode and regardless of delivery success — the
save is the final effect of the run. -/
theorem C3_state_saved_despite_delivery_failure
    (repo_commits : List (String × List CommitInfo)) (st : State) (output : Option String)
    (template : Option (Option String)) (sender recipient token : String) (deliveryOk : Bool)
    (hne : repo_commits.isEmpty = false) :
    Effect.saveState st
        ∈ main_finish repo_commits st output template sender recipient token deliveryOk
    ∧ (main_finish repo_commits st output template sender recipient token deliveryOk).getLast?
        = some (Effect.saveState st) := by
  cases output <;> simp [main_finish, hne, List.getLast?]

/-- Witness for C3: a failed email delivery still ends with the state
save. -/
theorem C3_state_saved_witness :
    Effect.saveState ⟨[("r1", "c2")]⟩
        ∈ main_finish [("r1", [mkCommitInfo ⟨"c2", 2, none, none, none⟩])] ⟨[("r1", "c2")]⟩
          none none "a@x" "b@x" "tok" false
    ∧ (main_finish [("r1", [mkCommitInfo ⟨"c2", 2, none, none, none⟩])] ⟨[("r1", "c2")]⟩
          none none "a@x" "b@x" "tok" false).getLast?
        = some (Effect.saveState ⟨[("r1", "c2")]⟩) :=
  C3_state_saved_despite_delivery_failure
    [("r1", [mkCommitInfo ⟨"c2", 2, none, none, none⟩])] ⟨[("r1", "c2")]⟩
    none none "a@x" "b@x" "tok" false (by decide)

/-! ## State persistence (src/src/main.rs lines 56-69)

`load_state` and `save_state` delegate serialisation to the external
serde_json crate.  Its behaviour at this interface — the pretty printing of
the `State` struct and the parsing of such documents — is modelled
concretely below: the printer reproduces `serde_json::to_string_pretty`'s
layout (two-space indentation, string escaping), and the parser accepts the
canonical documents the printer emits, returning `none` on anything it
cannot read, as `serde_json::from_str` returns an error. -/

/-- Lowercase hexadecimal digit character, as serde_json uses in escapes. -/
def hexDigitChar (n : Nat) : Char :=
  if n < 10 then Char.ofNat (48 + n) else Char.ofNat (87 + n)

/-- One character of a JSON string, escaped as serde_json escapes it:
quote and backslash by a backslash pair, the five short control escapes,
any other control character as a four-digit u-escape, the rest verbatim. -/
def escapeChar (c : Char) : List Char :=
  if c = '\"' then ['\\', '\"']
  else if c = '\\' then ['\\', '\\']
  else if c.toNat = 8 then ['\\', 'b']
  else if c.toNat = 9 then ['\\', 't']
  else if c.toNat = 10 then ['\\', 'n']
  else if c.toNat = 12 then ['\\', 'f']
  else if c.toNat = 13 then ['\\', 'r']
  else if c.toNat < 32 then
    ['\\', 'u', '0', '0', hexDigitChar (c.toNat / 16), hexDigitChar (c.toNat % 16)]
  else [c]

/-- A JSON string literal. -/
def encodeJString (s : String) : List Char :=
  '\"' :: ((s.data.map escapeChar).flatten ++ ['\"'])

/-- The canonical document fragments of the pretty printer. -/
def jsonHeader : List Char := "\x7b\n  \"last_seen\": ".data

/-- Opening of a non-empty inner object: brace, newline, four-space indent. -/
def jsonInnerOpen : List Char := "\x7b\n    ".data

/-- An empty inner object. -/
def jsonEmptyObj : List Char := "\x7b\x7d".data

/-- Separator between inner entries: comma, newline, four-space indent. -/
def jsonSep : List Char := ",\n    ".data

/-- Closing of a non-empty inner object. -/
def jsonInnerClose : List Char := "\n  \x7d".data

/-- Closing of the outer object. -/
def jsonOuterClose : List Char := "\n\x7d".data

/-- Separator between a key and its value. -/
def jsonColon : List Char := ": ".data

/-- One `"key": "value"` pair. -/
def encodeEntryJ (e : String × String) : List Char :=
  encodeJString e.1 ++ jsonColon ++ encodeJString e.2

/-- The second and later entries of the inner object, each preceded by a
comma, a newline and the four-space indent of the pretty printer. -/
def encodeSepEntries : List (String × String) → List Char
  | [] => []
  | e :: es => jsonSep ++ encodeEntryJ e ++ encodeSepEntries es

/-- The inner map object. -/
def encodeInner (m : List (String × String)) : List Char :=
  match m with
  | [] => jsonEmptyObj
  | e :: es => jsonInnerOpen ++ encodeEntryJ e ++ encodeSepEntries es ++ jsonInnerClose

/-- The full pretty-printed `State` document as
`serde_json::to_string_pretty` lays it out. -/
def encodeStateJson (st : State) : String :=
  ⟨jsonHeader ++ encodeInner st.last_seen ++ jsonOuterClose⟩

/-- Value of a hexadecimal digit character. -/
def hexVal (c : Char) : Option Nat :=
  if '0' ≤ c ∧ c ≤ '9' then some (c.toNat - 48)
  else if 'a' ≤ c ∧ c ≤ 'f' then some (c.toNat - 87)
  else none

/-- Inverse of the short escapes. -/
def unescapeChar (c : Char) : Option Char :=
  if c = '\"' then some '\"'
  else if c = '\\' then some '\\'
  else if c = 'b' then some (Char.ofNat 8)
  else if c = 't' then some (Char.ofNat 9)
  else if c = 'n' then some (Char.ofNat 10)
  else if c = 'f' then some (Char.ofNat 12)
  else if c = 'r' then some (Char.ofNat 13)
  else none

/-- The body of a JSON string up to its closing quote: the decoded
characters and the remainder after the quote. -/
def parseStringBody : List Char → Option (List Char × List Char)
  | [] => none
  | c :: rest =>
    if c = '\"' then some ([], rest)
    else if c = '\\' then
      match rest with
      | [] => none
      | e :: rest2 =>
        if e = 'u' then
          match rest2 with
          | d1 :: d2 :: d3 :: d4 :: rest3 =>
            match hexVal d1, hexVal d2, hexVal d3, hexVal d4 with
            | some a, some b, some a2, some b2 =>
              match parseStringBody rest3 with
              | some (s, r) => some (Char.ofNat (((a * 16 + b) * 16 + a2) * 16 + b2) :: s, r)
              | none => none
            | _, _, _, _ => none
          | _ => none
        else
          match unescapeChar e with
          | some c2 =>
            match parseStringBody rest2 with
            | some (s, r) => some (c2 :: s, r)
            | none => none
          | none => none
    else
      match parseStringBody rest with
      | some (s, r) => some (c :: s, r)
      | none => none

/-- A JSON string literal, starting at its opening quote. -/
def parseJString (l : List Char) : Option (String × List Char) :=
  match l with
  | [] => none
  | c :: rest =>
    if c = '\"' then
      match parseStringBody rest with
      | some (s, r) => some (⟨s⟩, r)
      | none => none
    else none

/-- One `"key": "value"` pair. -/
def parseEntryJ (l : List Char) : Option ((String × String) × List Char) :=
  match parseJString l with
  | none => none
  | some (k, r1) =>
    match stripLit jsonColon r1 with
    | none => none
    | some r2 =>
      match parseJString r2 with
      | none => none
      | some (v, r3) => some ((k, v), r3)

/-- Zero or more further entries, each preceded by the canonical separator;
stops as soon as no separator follows.  Fuel bounds the number of entries;
the remaining input length always suffices. -/
def parseSepEntries : Nat → List Char → Option (List (String × String) × List Char)
  | 0, l => some ([], l)
  | fuel + 1, l =>
    match stripLit jsonSep l with
    | none => some ([], l)
    | some r =>
      match parseEntryJ r with
      | none => none
      | some (e, r2) =>
        match parseSepEntries fuel r2 with
        | none => none
        | some (es, r3) => some (e :: es, r3)

/-- Parser for the canonical pretty-printed `State` document; `none` on
any deviation, as `serde_json::from_str` errors on malformed input. -/
def parseStateJson (s : String) : Option State :=
  match stripLit jsonHeader s.data with
  | none => none
  | some r =>
    match stripLit jsonEmptyObj r with
    | some r2 => if r2 = jsonOuterClose then some ⟨[]⟩ else none
    | none =>
      match stripLit jsonInnerOpen r with
      | none => none
      | some r2 =>
        match parseEntryJ r2 with
        | none => none
        | some (e, r3) =>
          match parseSepEntries r3.length r3 with
          | none => none
          | some (es, r4) =>
            if r4 = jsonInnerClose ++ jsonOuterClose then some ⟨e :: es⟩ else none

/-- `save_state` of src/src/main.rs lines 65-69, modelled as the document
written to the state file (`to_string_pretty` cannot fail for this type;
the code ignores the write result). -/
def save_state (st : State) : String :=
  encodeStateJson st

/-- `load_state` of src/src/main.rs lines 56-63: a missing file yields the
default (empty) state; an unreadable file reads as the empty string via
`unwrap_or_default`; a parse failure falls back to the default state via
`unwrap_or_default`. -/
def load_state (pathExists : Bool) (content : Option String) : State :=
  if pathExists then
    match parseStateJson (content.getD "") with
    | some st => st
    | none => ⟨[]⟩
  else ⟨[]⟩

theorem stripLit_append (p r : List Char) : stripLit p (p ++ r) = some r := by
  simp [stripLit, isPrefixOf_append_self, List.drop_left]

theorem hexVal_hexDigitChar {m : Nat} (h : m < 16) : hexVal (hexDigitChar m) = some m := by
  interval_cases m <;> decide

theorem parseStringBody_quote (rest : List Char) :
    parseStringBody ('\"' :: rest) = some ([], rest) := by
  unfold parseStringBody
  simp

/-- Parsing resumes correctly after any single escaped character. -/
theorem parseStringBody_escape_step (c : Char) (tail s r : List Char)
    (h : parseStringBody tail = some (s, r)) :
    parseStringBody (escapeChar c ++ tail) = some (c :: s, r) := by
  by_cases h1 : c = '\"'
  · subst h1
    have he : escapeChar '\"' = ['\\', '\"'] := by decide
    rw [he]
    conv_lhs => rw [parseStringBody.eq_def]
    simp [unescapeChar, h]
  by_cases h2 : c = '\\'
  · subst h2
    have he : escapeChar '\\' = ['\\', '\\'] := by decide
    rw [he]
    conv_lhs => rw [parseStringBody.eq_def]
    simp [unescapeChar, h]
  by_cases h3 : c.toNat = 8
  · have hc : Char.ofNat 8 = c := by rw [← h3, Char.ofNat_toNat]
    have he : escapeChar c = ['\\', 'b'] := by simp [escapeChar, h1, h2, h3]
    rw [he]
    conv_lhs => rw [parseStringBody.eq_def]
    simp [unescapeChar, h]
    exact hc
  by_cases h4 : c.toNat = 9
  · have hc : Char.ofNat 9 = c := by rw [← h4, Char.ofNat_toNat]
    have he : escapeChar c = ['\\', 't'] := by simp [escapeChar, h1, h2, h3, h4]
    rw [he]
    conv_lhs => rw [parseStringBody.eq_def]
    simp [unescapeChar, h]
    exact hc
  by_cases h5 : c.toNat = 10
  · have hc : Char.ofNat 10 = c := by rw [← h5, Char.ofNat_toNat]
    have he : escapeChar c = ['\\', 'n'] := by simp [escapeChar, h1, h2, h3, h4, h5]
    rw [he]
    conv_lhs => rw [parseStringBody.eq_def]
    simp [unescapeChar, h]
    exact hc
  by_cases h6 : c.toNat = 12
  · have hc : Char.ofNat 12 = c := by rw [← h6, Char.ofNat_toNat]
    have he : escapeChar c = ['\\', 'f'] := by simp [escapeChar, h1, h2, h3, h4, h5, h6]
    rw [he]
    conv_lhs => rw [parseStringBody.eq_def]
    simp [unescapeChar, h]
    exact hc
  by_cases h7 : c.toNat = 13
  · have hc : Char.ofNat 13 = c := by rw [← h7, Char.ofNat_toNat]
    have he : escapeChar c = ['\\', 'r'] := by simp [escapeChar, h1, h2, h3, h4, h5, h6, h7]
    rw [he]
    conv_lhs => rw [parseStringBody.eq_def]
    simp [unescapeChar, h]
    exact hc
  by_cases h8 : c.toNat < 32
  · have hdiv : c.toNat / 16 < 16 := by omega
    have hmod : c.toNat % 16 < 16 := Nat.mod_lt _ (by norm_num)
    have hz : hexVal '0' = some 0 := by decide
    have hofn : Char.ofNat (c.toNat / 16 * 16 + c.toNat % 16) = c := by
      have harith : c.toNat / 16 * 16 + c.toNat % 16 = c.toNat := by omega
      rw [harith, Char.ofNat_toNat]
    have he : escapeChar c
        = ['\\', 'u', '0', '0', hexDigitChar (c.toNat / 16), hexDigitChar (c.toNat % 16)] := by
      simp [escapeChar, h1, h2, h3, h4, h5, h6, h7, h8]
    rw [he]
    conv_lhs => rw [parseStringBody.eq_def]
    simp [h, hz, hexVal_hexDigitChar hdiv, hexVal_hexDigitChar hmod, hofn]
  · have he : escapeChar c = [c] := by simp [escapeChar, h1, h2, h3, h4, h5, h6, h7, h8]
    rw [he]
    conv_lhs => rw [parseStringBody.eq_def]
    simp [h1, h2, h]

/-- The string-body parser inverts the escaper. -/
theorem parseStringBody_encode (s : List Char) (rest : List Char) :
    parseStringBody ((s.map escapeChar).flatten ++ '\"' :: rest) = some (s, rest) := by
  induction s with
  | nil => exact parseStringBody_quote rest
  | cons c t ih =>
    have hsh : ((List.map escapeChar (c :: t)).flatten) ++ '\"' :: rest
        = escapeChar c ++ ((t.map escapeChar).flatten ++ '\"' :: rest) := by
      simp [List.append_assoc]
    rw [hsh]
    exact parseStringBody_escape_step c _ t rest ih

theorem parseJString_encode (s : String) (rest : List Char) :
    parseJString (encodeJString s ++ rest) = some (s, rest) := by
  have hsh : encodeJString s ++ rest
      = '\"' :: ((s.data.map escapeChar).flatten ++ '\"' :: rest) := by
    simp [encodeJString]
  rw [hsh]
  unfold parseJString
  simp [parseStringBody_encode]

theorem parseEntryJ_encode (e : String × String) (rest : List Char) :
    parseEntryJ (encodeEntryJ e ++ rest) = some (e, rest) := by
  obtain ⟨k, v⟩ := e
  have hsh : encodeEntryJ (k, v) ++ rest
      = encodeJString k ++ (jsonColon ++ (encodeJString v ++ rest)) := by
    simp [encodeEntryJ, List.append_assoc]
  rw [hsh]
  unfold parseEntryJ
  simp [parseJString_encode, stripLit_append]

theorem parseSepEntries_encode (es : List (String × String)) :
    ∀ (fuel : Nat) (rest : List Char), es.length ≤ fuel →
      stripLit jsonSep rest = none →
      parseSepEntries fuel (encodeSepEntries es ++ rest) = some (es, rest) := by
  induction es with
  | nil =>
    intro fuel rest hf hr
    cases fuel with
    | zero =>
      conv_lhs => rw [parseSepEntries.eq_def]
      simp [encodeSepEntries]
    | succ f =>
      conv_lhs => rw [parseSepEntries.eq_def]
      simp [encodeSepEntries, hr]
  | cons e t ih =>
    intro fuel rest hf hr
    cases fuel with
    | zero => simp at hf
    | succ f =>
      have hf' : t.length ≤ f := by simp at hf; omega
      have hsh : encodeSepEntries (e :: t) ++ rest
          = jsonSep ++ (encodeEntryJ e ++ (encodeSepEntries t ++ rest)) := by
        simp [encodeSepEntries, List.append_assoc]
      rw [hsh]
      conv_lhs => rw [parseSepEntries.eq_def]
      simp [stripLit_append, parseEntryJ_encode, ih f rest hf' hr]

theorem isPrefixOf_cons_same (a : Char) (as bs : List Char) :
    (a :: as).isPrefixOf (a :: bs) = as.isPrefixOf bs := by
  simp [List.isPrefixOf]

theorem stripLit_comma_newline (w : List Char) :
    stripLit jsonSep (jsonInnerClose ++ w) = none := by
  have h1 : jsonInnerClose ++ w = '\n' :: (' ' :: ' ' :: '\x7d' :: w) := by
    have hd : jsonInnerClose = ['\n', ' ', ' ', '\x7d'] := by decide
    rw [hd]; rfl
  have h2 : jsonSep = ',' :: ['\n', ' ', ' ', ' ', ' '] := by decide
  unfold stripLit
  rw [h1, h2]
  have h3 : (',' :: ['\n', ' ', ' ', ' ', ' ']).isPrefixOf ('\n' :: (' ' :: ' ' :: '\x7d' :: w))
      = false :=
    isPrefixOf_cons_ne _ _ (by decide)
  simp [h3]

theorem stripLit_empty_object_mismatch (w : List Char) :
    stripLit jsonEmptyObj (jsonInnerOpen ++ w) = none := by
  have h1 : jsonInnerOpen ++ w = '\x7b' :: ('\n' :: ' ' :: ' ' :: ' ' :: ' ' :: w) := by
    have hd : jsonInnerOpen = ['\x7b', '\n', ' ', ' ', ' ', ' '] := by decide
    rw [hd]; rfl
  have h2 : jsonEmptyObj = '\x7b' :: ['\x7d'] := by decide
  unfold stripLit
  rw [h1, h2, isPrefixOf_cons_same]
  have h3 : (['\x7d'] : List Char).isPrefixOf ('\n' :: ' ' :: ' ' :: ' ' :: ' ' :: w) = false :=
    isPrefixOf_cons_ne _ _ (by decide)
  simp [h3]

theorem encodeSepEntries_length (es : List (String × String)) :
    es.length ≤ (encodeSepEntries es).length := by
  induction es with
  | nil => simp [encodeSepEntries]
  | cons e t ih =>
    simp only [encodeSepEntries, List.length_append, List.length_cons]
    have hsep : jsonSep.length = 6 := by decide
    omega

/-- The parser inverts the printer on every state. -/
theorem parseStateJson_encode (st : State) : parseStateJson (encodeStateJson st) = some st := by
  obtain ⟨m⟩ := st
  cases m with
  | nil => decide
  | cons e es =>
    have hsh : (encodeStateJson ⟨e :: es⟩).data
        = jsonHeader ++ (jsonInnerOpen ++ (encodeEntryJ e
            ++ (encodeSepEntries es ++ (jsonInnerClose ++ jsonOuterClose)))) := by
      simp [encodeStateJson, encodeInner, List.append_assoc]
    have htail : stripLit jsonSep (jsonInnerClose ++ jsonOuterClose) = none :=
      stripLit_comma_newline jsonOuterClose
    have hfuel : es.length
        ≤ (encodeSepEntries es ++ (jsonInnerClose ++ jsonOuterClose)).length := by
      have h1 := encodeSepEntries_length es
      simp only [List.length_append]
      omega
    have hrec := parseSepEntries_encode es
      ((encodeSepEntries es ++ (jsonInnerClose ++ jsonOuterClose)).length)
      (jsonInnerClose ++ jsonOuterClose) hfuel htail
    unfold parseStateJson
    simp only [hsh, stripLit_append, stripLit_empty_object_mismatch, parseEntryJ_encode, hrec]
    simp

/-- Claim C8: saving a watermark map with `save_state` and reloading it
with `load_state` returns an equal map — the serialisation round-trips. -/
theorem C8_state_roundtrip (st : State) : load_state true (some (save_state st)) = st := by
  simp [load_state, save_state, parseStateJson_encode]

/-- Claim C7: loading the watermark state never errors — a missing file, an
unreadable file and unparseable contents all yield the empty map, and a
non-empty map comes back only from an existing file whose contents parse. -/
theorem C7_load_state_total_recovery :
    (∀ content, load_state false content = ⟨[]⟩)
    ∧ load_state true none = ⟨[]⟩
    ∧ (∀ s, parseStateJson s = none → load_state true (some s) = ⟨[]⟩)
    ∧ ∀ (ex : Bool) (content : Option String),
        (load_state ex content).last_seen ≠ [] →
          ex = true ∧ ∃ c stp, content = some c ∧ parseStateJson c = some stp
            ∧ stp.last_seen ≠ [] := by
  have hempty : parseStateJson "" = none := by decide
  refine ⟨fun content => by simp [load_state], by simp [load_state, hempty], ?_, ?_⟩
  · intro s hs
    simp [load_state, hs]
  · intro ex content h
    cases ex with
    | false =>
      exfalso
      apply h
      simp [load_state]
    | true =>
      cases content with
      | none =>
        exfalso
        apply h
        simp [load_state, hempty]
      | some c =>
        cases hp : parseStateJson c with
        | none =>
          exfalso
          apply h
          simp [load_state, hp]
        | some stp =>
          refine ⟨rfl, c, stp, rfl, hp, ?_⟩
          simpa [load_state, hp] using h

/-- Witness for C7: corrupt contents load as the empty map whether or not
the file exists. -/
theorem C7_load_state_total_recovery_witness :
    load_state false (some "junk") = ⟨[]⟩
    ∧ load_state true (some "junk") = ⟨[]⟩ :=
  ⟨C7_load_state_total_recovery.1 (some "junk"),
   C7_load_state_total_recovery.2.2.1 "junk" (by decide)⟩

end Gitmon

